import Mathlib

/-!
Verification of the agentGo mouse-trajectory recorder and player.

The Go sources are shallowly embedded as follows.  CSV rows are lists of
strings; the numeric parsing done with strconv is modelled by executable
functions over the character lists of those strings, covering the plain
decimal forms that the programs themselves ever emit.  float64 values are
modelled exactly, as unnormalized integer fractions (the Frac structure,
interpreted into the rationals only inside proofs), with an explicit
rounding step for the one place the code serializes a float with fixed
precision (fmt.Sprintf with verb %.8f).  The playback loop, the csv reader
field count check, the buffered csv writer, and the per-tick recorder
handler are each embedded as pure state-passing functions whose structure
follows the corresponding Go control flow line by line.
-/

/-! ## Characters, digits, and Go-style numeric strings -/

/-- True when the character is an ASCII decimal digit. -/
def isDigitChar (c : Char) : Bool := 48 ≤ c.toNat && c.toNat ≤ 57

/-- Numeric value of a list of ASCII digit characters, most significant first
(the accumulator loop inside strconv integer parsing). -/
def digitsToNat (cs : List Char) : Nat :=
  cs.foldl (fun a c => a * 10 + (c.toNat - 48)) 0

/-- Every character of the list is an ASCII decimal digit. -/
def allDigits (cs : List Char) : Bool := cs.all isDigitChar

/-- Fuel-driven digit emission loop, mirroring the divide-by-ten loop Go uses
to print an integer; the fuel argument only ensures structural recursion. -/
def natCharsAux : Nat → Nat → List Char → List Char
  | 0, _, acc => acc
  | fuel + 1, n, acc =>
    if n = 0 then acc else natCharsAux fuel (n / 10) (Nat.digitChar (n % 10) :: acc)

/-- Decimal digit characters of a natural number, as Go prints it. -/
def natChars (n : Nat) : List Char :=
  if n = 0 then ['0'] else natCharsAux n n []

/-- Left-pads a digit list to eight characters with zeros: the fractional part
printed by the %.8f verb always has exactly eight digits. -/
def pad8 (cs : List Char) : List Char := List.replicate (8 - cs.length) '0' ++ cs

/-- Optional leading sign, strconv style: returns whether the number is
negative together with the remaining characters. -/
def signSplit (cs : List Char) : Bool × List Char :=
  match cs with
  | '+' :: rest => (false, rest)
  | '-' :: rest => (true, rest)
  | _ => (false, cs)

/-- Splits a character list at every occurrence of the separator, as
strings.Split does for a one-character separator. -/
def splitOnChar (sep : Char) : List Char → List (List Char)
  | [] => [[]]
  | c :: cs =>
    if c = sep then [] :: splitOnChar sep cs
    else
      match splitOnChar sep cs with
      | [] => [[c]]
      | h :: t => (c :: h) :: t

/-- ASCII whitespace as trimmed by strings.TrimSpace on the inputs at hand. -/
def isSpaceChar (c : Char) : Bool := c == ' ' || c == '\t' || c == '\n' || c == '\r'

/-- strings.TrimSpace: drop whitespace from both ends. -/
def trimChars (cs : List Char) : List Char :=
  ((cs.dropWhile isSpaceChar).reverse.dropWhile isSpaceChar).reverse

/-- Models strconv.ParseInt(s, 10, 64): optional sign, a nonempty run of
decimal digits, and the int64 range check; any failure yields none. -/
def parseGoInt64 (s : String) : Option Int :=
  let sp := signSplit s.data
  if sp.2 ≠ [] ∧ allDigits sp.2 = true then
    let v : Int := if sp.1 then -(digitsToNat sp.2 : Int) else (digitsToNat sp.2 : Int)
    if -(2 ^ 63) ≤ v ∧ v < 2 ^ 63 then some v else none
  else none

/-- Exact unnormalized fraction num over den, with positive den for every
value built by this development: the embedding of a float64 value.  Kept
unreduced so that all operations compute inside the kernel. -/
structure Frac where
  num : Int
  den : Int
deriving DecidableEq, Repr

/-- A float64 holding an integer exactly. -/
def Frac.ofInt (n : Int) : Frac := ⟨n, 1⟩

/-- Exact float64 multiplication. -/
def Frac.mul (a b : Frac) : Frac := ⟨a.num * b.num, a.den * b.den⟩

/-- Exact float64 division. -/
def Frac.div (a b : Frac) : Frac := ⟨a.num * b.den, a.den * b.num⟩

/-- Go conversion int(f): truncation toward zero, which for a fraction with
positive denominator is T-rounding integer division. -/
def Frac.trunc (a : Frac) : Int := Int.tdiv a.num a.den

/-- Nearest integer to num over den (positive den), halves rounded up:
the floor of (2 num + den) / (2 den), taken with Euclidean division. -/
def Frac.roundNear (a : Frac) : Int := (2 * a.num + a.den) / (2 * a.den)

/-- Rational value of a fraction, used only by the proofs. -/
def Frac.val (a : Frac) : ℚ := (a.num : ℚ) / (a.den : ℚ)

/-- Models strconv.ParseFloat(s, 64) on the plain decimal forms the recorder
emits and the player consumes (optional sign, digits, at most one dot);
the resulting float64 value is represented exactly. -/
def parseGoFloat (s : String) : Option Frac :=
  let sp := signSplit s.data
  match splitOnChar '.' sp.2 with
  | [a] =>
    if a ≠ [] ∧ allDigits a = true then
      some ⟨(if sp.1 then -1 else 1) * (digitsToNat a : Int), 1⟩
    else none
  | [a, b] =>
    if a ++ b ≠ [] ∧ allDigits a = true ∧ allDigits b = true then
      some ⟨(if sp.1 then -1 else 1) *
        ((digitsToNat a : Int) * 10 ^ b.length + (digitsToNat b : Int)), 10 ^ b.length⟩
    else none
  | _ => none

/-- Numeric value printed by fmt.Sprintf with verb %.8f: the argument rounded
to eight decimal places. -/
def fmt8 (v : Frac) : Frac := ⟨(Frac.mul v (Frac.ofInt 100000000)).roundNear, 100000000⟩

/-- Character string printed by fmt.Sprintf with verb %.8f: sign, integer
part, a dot, and exactly eight fractional digits. -/
def fmt8s (v : Frac) : String :=
  let n : Int := (Frac.mul v (Frac.ofInt 100000000)).roundNear
  let m : Nat := n.natAbs
  String.mk ((if n < 0 then ['-'] else []) ++
    natChars (m / 100000000) ++ '.' :: pad8 (natChars (m % 100000000)))

/-- fmt.Sprintf with verb %d on an int64. -/
def fmtInt (t : Int) : String :=
  String.mk ((if t < 0 then ['-'] else []) ++ natChars t.natAbs)

/-! ## Screen geometry -/

/-- Geometry resolved once at recorder startup (src/recorder/main.go lines
65-74): robotgo.GetScreenSize and the display bounds of screenshot. -/
structure RecGeometry where
  logicalWidth : Int
  logicalHeight : Int
  physicalWidth : Int
  physicalHeight : Int

/-- Geometry resolved by the player (src/unnamed/part_002 line 34): only the
logical size is queried. -/
structure PlayerGeometry where
  logicalWidth : Int
  logicalHeight : Int

/-! ## Recorder output -/

/-- One CSV record, as produced by encoding/csv: a list of fields. -/
abbrev Row := List String

/-- Header row written by src/recorder/main.go line 55. -/
def headerRowRec : Row := ["timestamp", "norm_x", "norm_y"]

/-- CSV record written on one tick (src/recorder/main.go lines 82-93): the
mouse position divided by the logical dimensions, the elapsed milliseconds
printed with %d and both normalized coordinates with %.8f. -/
def sampleRow (g : RecGeometry) (ts mx my : Int) : Row :=
  [fmtInt ts,
   fmt8s (Frac.div (Frac.ofInt mx) (Frac.ofInt g.logicalWidth)),
   fmt8s (Frac.div (Frac.ofInt my) (Frac.ofInt g.logicalHeight))]

/-! ## Player -/

/-- Per-row parsing of the player (src/unnamed/part_002 lines 42-62): the
field-count test, then ParseInt on the timestamp and ParseFloat on both
coordinates; the first failing check makes the loop skip the row after one
diagnostic, which this embedding collapses into a single none. -/
def rowParses (r : Row) : Option (Int × Frac × Frac) :=
  match r with
  | [ts, xs, ys] =>
    match parseGoInt64 ts with
    | none => none
    | some t =>
      match parseGoFloat xs with
      | none => none
      | some nx =>
        match parseGoFloat ys with
        | none => none
        | some ny => some (t, nx, ny)
  | _ => none

/-- Denormalization of part_002 lines 72-73: int(norm times logical dim). -/
def target (g : PlayerGeometry) (nx ny : Frac) : Int × Int :=
  ((Frac.mul nx (Frac.ofInt g.logicalWidth)).trunc,
   (Frac.mul ny (Frac.ofInt g.logicalHeight)).trunc)

/-- Observable playback events: one diagnostic per skipped row, and one move
per fully parsed row.  The move carries the sleep actually performed before
it together with the position; time.Sleep returns immediately on a
non-positive duration, hence the clamp of the delay at zero. -/
inductive PlayEvent where
  | diag : PlayEvent
  | move : Int → Int → Int → PlayEvent
deriving DecidableEq, Repr

/-- Playback loop of part_002 lines 39-77.  The Nat argument is the loop
index i, the Int argument the lastTimestamp variable; the sleep is performed
only when the raw row index is positive. -/
def playRows (g : PlayerGeometry) : Nat → Int → List Row → List PlayEvent
  | _, _, [] => []
  | i, last, r :: rs =>
    match rowParses r with
    | none => PlayEvent.diag :: playRows g (i + 1) last rs
    | some (t, nx, ny) =>
      PlayEvent.move (if 0 < i then max (t - last) 0 else 0)
        (target g nx ny).1 (target g nx ny).2 :: playRows g (i + 1) t rs

/-- The playback loop once the row index is already positive: every parsed
row sleeps the clamped difference to the previous parsed timestamp. -/
def emitAll (g : PlayerGeometry) : Int → List Row → List PlayEvent
  | _, [] => []
  | last, r :: rs =>
    match rowParses r with
    | none => PlayEvent.diag :: emitAll g last rs
    | some (t, nx, ny) =>
      PlayEvent.move (max (t - last) 0) (target g nx ny).1 (target g nx ny).2 ::
        emitAll g t rs

/-- The same emission over already parsed samples, used to state properties
of well-formed recordings. -/
def emitSamples (g : PlayerGeometry) : Int → List (Int × Frac × Frac) → List PlayEvent
  | _, [] => []
  | last, (t, nx, ny) :: rest =>
    PlayEvent.move (max (t - last) 0) (target g nx ny).1 (target g nx ny).2 ::
      emitSamples g t rest

/-- The issued positioning commands, in order: sleep performed, x, y. -/
def moveEvents : List PlayEvent → List (Int × Int × Int)
  | [] => []
  | PlayEvent.diag :: es => moveEvents es
  | PlayEvent.move d x y :: es => (d, x, y) :: moveEvents es

/-- Total time slept during playback. -/
def totalSleepOf : List PlayEvent → Int
  | [] => 0
  | PlayEvent.diag :: es => totalSleepOf es
  | PlayEvent.move d _ _ :: es => d + totalSleepOf es

/-- Number of diagnostics emitted during playback. -/
def diagCount : List PlayEvent → Nat
  | [] => 0
  | PlayEvent.diag :: es => diagCount es + 1
  | PlayEvent.move _ _ _ :: es => diagCount es

/-- encoding/csv Reader.ReadAll with the default FieldsPerRecord: the first
record fixes the expected field count and the first record with a different
count makes ReadAll stop and return ErrFieldCount; the Bool is the error
flag.  Records are modelled at field granularity. -/
def readAllAux (expected : Nat) : List Row → List Row × Bool
  | [] => ([], false)
  | r :: rs =>
    if r.length = expected then
      let res := readAllAux expected rs
      (r :: res.1, res.2)
    else ([], true)

/-- ReadAll over a whole file of records. -/
def readAllCsv : List Row → List Row × Bool
  | [] => ([], false)
  | first :: rest =>
    let res := readAllAux first.length rest
    (first :: res.1, res.2)

/-- Full load and playback of part_002: ReadAll (whose error is fatal via
log.Fatalf, modelled as the error case), removal of the header row when the
file is nonempty, then the playback loop from index zero. -/
def loadAndPlay (g : PlayerGeometry) (fileRows : List Row) : Except Unit (List PlayEvent) :=
  let res := readAllCsv fileRows
  if res.2 then Except.error () else Except.ok (playRows g 0 0 (res.1.drop 1))

/-! ## Recorder tick handler -/

/-- Inputs of one sampler tick: elapsed milliseconds, the mouse position read
by robotgo.GetMousePos, and whether the screen capture, the png encode and
the debug file write succeed on this tick. -/
structure TickInput where
  timestamp : Int
  mouseX : Int
  mouseY : Int
  captureOk : Bool
  encodeOk : Bool
  saveOk : Bool

/-- Outcome of a Gemini GenerateContent call: a response text, or a failure
or timeout (including an empty candidate list). -/
inductive EstOutcome where
  | ok : String → EstOutcome
  | failed : EstOutcome

/-- Steps a tick handler performs, in order. -/
inductive TickStep where
  | append : Row → TickStep
  | captureFailDiag : TickStep
  | encodeFailDiag : TickStep
  | saveFailDiag : TickStep
  | estimateDispatch : TickStep
  | estimateFailDiag : TickStep
deriving DecidableEq, Repr

/-- One tick of src/recorder/main.go lines 81-140, in source order: the CSV
record is written first (lines 87-96), then the capture (continue on error),
the png encode (continue on error), the debug file write (log only), and
finally the Gemini call dispatched inside go func, whose failure is only
logged by the goroutine. -/
def tickTrace (g : RecGeometry) (inp : TickInput) (est : EstOutcome) : List TickStep :=
  TickStep.append (sampleRow g inp.timestamp inp.mouseX inp.mouseY) ::
    (if inp.captureOk then
      (if inp.encodeOk then
        (if inp.saveOk then [] else [TickStep.saveFailDiag]) ++
          TickStep.estimateDispatch ::
            (match est with
             | EstOutcome.failed => [TickStep.estimateFailDiag]
             | EstOutcome.ok _ => [])
      else [TickStep.encodeFailDiag])
    else [TickStep.captureFailDiag])

/-- CSV records appended by a list of steps, in order. -/
def appendsOf : List TickStep → List Row
  | [] => []
  | TickStep.append r :: ss => r :: appendsOf ss
  | _ :: ss => appendsOf ss

/-- A whole run of ticks; the function argument gives each tick the outcome
of the asynchronous call it dispatched. -/
def ticksTrace (g : RecGeometry) : List TickInput → (Nat → EstOutcome) → List TickStep
  | [], _ => []
  | i :: is, est => tickTrace g i (est 0) ++ ticksTrace g is (fun k => est (k + 1))

/-- The primary log produced by a run: the records appended by the ticks. -/
def runRecords (g : RecGeometry) (inps : List TickInput) (est : Nat → EstOutcome) : List Row :=
  appendsOf (ticksTrace g inps est)

/-- The whole recorder run at step granularity: the header append of line 55
happens once, before the tick loop. -/
def recorderTrace (g : RecGeometry) (inps : List TickInput) (est : Nat → EstOutcome) : List TickStep :=
  TickStep.append headerRowRec :: ticksTrace g inps est

/-- Millisecond costs of the individual steps of one tick handler. -/
structure TickCosts where
  appendMs : Nat
  captureMs : Nat
  encodeMs : Nat
  saveMs : Nat
  estimateMs : Nat

/-- Synchronous duration of one tick handler of src/recorder/main.go: the
record write, the capture attempt, and on success the encode attempt and the
debug save.  The Gemini call runs inside go func (line 135), so estimateMs
never contributes to the handler and cannot delay the next tick. -/
def tickSyncMillis (inp : TickInput) (c : TickCosts) : Nat :=
  c.appendMs +
    (if inp.captureOk then
      c.captureMs + (if inp.encodeOk then c.encodeMs + c.saveMs else c.encodeMs)
    else c.captureMs)

/-- CSV records of one tick of the recorder variant in src/unnamed/part_001
lines 81-140: capture and encode failures skip the tick, the Gemini call is
synchronous, and the record is built from the comma-split response text, so
a failed call writes nothing. -/
def tickRecordsV1 (inp : TickInput) (est : EstOutcome) : List Row :=
  if inp.captureOk then
    if inp.encodeOk then
      match est with
      | EstOutcome.failed => []
      | EstOutcome.ok txt =>
        match splitOnChar ',' (trimChars txt.data) with
        | [cx, cy] => [[fmtInt inp.timestamp, String.mk cx, String.mk cy]]
        | _ => []
    else []
  else []

/-! ## Buffered csv writer -/

/-- State of the bufio.Writer under csv.NewWriter(file): the pending buffer
and the bytes already handed to the file, which are the durable bytes of
this model (a killed process loses the buffer, not the file). -/
structure BufWriter where
  buf : List Char
  flushed : List Char

/-- A freshly created writer. -/
def bufInit : BufWriter := { buf := [], flushed := [] }

/-- bufio.Writer.Write for a write of at most one buffer capacity, which
every CSV record here is: the bytes are buffered when they fit, otherwise
the buffer is filled to capacity and flushed and the rest stays buffered. -/
def bufWrite (cap : Nat) (w : BufWriter) (p : List Char) : BufWriter :=
  if w.buf.length + p.length ≤ cap then { w with buf := w.buf ++ p }
  else
    { buf := p.drop (cap - w.buf.length),
      flushed := w.flushed ++ w.buf ++ p.take (cap - w.buf.length) }

/-- Writer.Flush: everything buffered becomes durable. -/
def bufFlush (w : BufWriter) : BufWriter := { buf := [], flushed := w.flushed ++ w.buf }

/-- Bytes of one CSV record as csv.Writer emits them: fields joined by
commas, newline terminated (UseCRLF is false, no field needs quoting). -/
def csvLine : Row → List Char
  | [] => ['\n']
  | [f] => f.data ++ ['\n']
  | f :: rest => f.data ++ ',' :: csvLine rest

/-- The recorder pushing rows through csv.Writer: one writer.Write per row
and no per-row Flush (src/recorder/main.go lines 51-52 and 94); the deferred
writer.Flush only runs when main returns. -/
def writeRows (cap : Nat) (w : BufWriter) : List Row → BufWriter
  | [] => w
  | r :: rs => writeRows cap (bufWrite cap w (csvLine r)) rs

/-! ## Concrete geometries used by the spec scenarios -/

/-- A 1920 by 1080 screen with 1:1 logical to physical scale. -/
def recG1080 : RecGeometry := ⟨1920, 1080, 1920, 1080⟩

/-- The 3840 by 2160 playback machine of the scaling scenario. -/
def play4k : PlayerGeometry := ⟨3840, 2160⟩

/-- A 1920 by 1080 playback machine. -/
def playHD : PlayerGeometry := ⟨1920, 1080⟩

/-! ## Lemmas: digit characters and rendered numbers -/

theorem isDigitChar_digitChar {d : Nat} (h : d < 10) :
    isDigitChar (Nat.digitChar d) = true := by
  interval_cases d <;> decide

theorem toNat_digitChar {d : Nat} (h : d < 10) :
    (Nat.digitChar d).toNat - 48 = d := by
  interval_cases d <;> decide

theorem natCharsAux_eq :
    ∀ (fuel n : Nat) (acc : List Char), n ≤ fuel →
      natCharsAux fuel n acc = ((Nat.digits 10 n).reverse.map Nat.digitChar) ++ acc := by
  intro fuel
  induction fuel with
  | zero =>
    intro n acc h
    interval_cases n
    simp [natCharsAux]
  | succ f ih =>
    intro n acc h
    by_cases hn : n = 0
    · subst hn; simp [natCharsAux]
    · have hpos : 0 < n := Nat.pos_of_ne_zero hn
      have hlt : n / 10 ≤ f :=
        Nat.lt_succ_iff.mp (lt_of_lt_of_le (Nat.div_lt_self hpos (by norm_num)) h)
      rw [natCharsAux, if_neg hn, ih (n / 10) _ hlt,
        Nat.digits_def' (b := 10) (by norm_num) hpos]
      simp

theorem natChars_eq (n : Nat) :
    natChars n = if n = 0 then ['0'] else (Nat.digits 10 n).reverse.map Nat.digitChar := by
  by_cases hn : n = 0
  · simp [natChars, hn]
  · simp [natChars, hn, natCharsAux_eq n n [] le_rfl]

theorem natChars_ne_nil (n : Nat) : natChars n ≠ [] := by
  rw [natChars_eq]
  by_cases hn : n = 0
  · simp [hn]
  · simp [hn, Nat.digits_ne_nil_iff_ne_zero.mpr hn]

theorem allDigits_natChars (n : Nat) : allDigits (natChars n) = true := by
  rw [natChars_eq]
  by_cases hn : n = 0
  · simp [hn]; rfl
  · simp only [hn, if_false, allDigits, List.all_eq_true]
    intro c hc
    obtain ⟨d, hd, rfl⟩ := List.mem_map.mp hc
    exact isDigitChar_digitChar (Nat.digits_lt_base (by norm_num) (List.mem_reverse.mp hd))

theorem foldl_digitChar (L : List Nat) (hL : ∀ d ∈ L, d < 10) (a : Nat) :
    List.foldl (fun acc c => acc * 10 + (c.toNat - 48)) a (L.reverse.map Nat.digitChar) =
      a * 10 ^ L.length + Nat.ofDigits 10 L := by
  induction L generalizing a with
  | nil => simp
  | cons d L ih =>
    have hd : d < 10 := hL d (List.mem_cons_self d L)
    have hL2 : ∀ e ∈ L, e < 10 := fun e he => hL e (List.mem_cons_of_mem d he)
    simp only [List.reverse_cons, List.map_append, List.foldl_append, List.map_cons,
      List.map_nil, List.foldl_cons, List.foldl_nil, ih hL2 a, toNat_digitChar hd,
      Nat.ofDigits_cons, List.length_cons]
    ring

theorem digitsToNat_natChars (n : Nat) : digitsToNat (natChars n) = n := by
  rw [natChars_eq]
  by_cases hn : n = 0
  · simp [hn]; rfl
  · have := foldl_digitChar (Nat.digits 10 n)
      (fun d hd => Nat.digits_lt_base (by norm_num) hd) 0
    simp only [hn, if_false, digitsToNat, this, Nat.ofDigits_digits, zero_mul, zero_add]

theorem natChars_length_le {n k : Nat} (hk : 0 < k) (h : n < 10 ^ k) :
    (natChars n).length ≤ k := by
  rw [natChars_eq]
  by_cases hn : n = 0
  · simpa [hn] using hk
  · simp only [hn, if_false, List.length_map, List.length_reverse]
    by_contra hlen
    push_neg at hlen
    have h1 : 10 ^ (k + 1) ≤ 10 ^ (Nat.digits 10 n).length :=
      Nat.pow_le_pow_right (by norm_num) hlen
    have h2 : 10 ^ (Nat.digits 10 n).length ≤ 10 * n :=
      Nat.base_pow_length_digits_le 10 n (by norm_num) hn
    have h3 : 10 * 10 ^ k ≤ 10 * n := by
      calc 10 * 10 ^ k = 10 ^ (k + 1) := by ring
      _ ≤ 10 ^ (Nat.digits 10 n).length := h1
      _ ≤ 10 * n := h2
    omega

theorem digitsToNat_replicate_zero (k : Nat) (cs : List Char) :
    digitsToNat (List.replicate k '0' ++ cs) = digitsToNat cs := by
  have : ∀ m, List.foldl (fun a c => a * 10 + (c.toNat - 48)) 0 (List.replicate m '0') = 0 := by
    intro m
    induction m with
    | zero => rfl
    | succ m ih => simpa [List.replicate_succ] using ih
  simp [digitsToNat, List.foldl_append, this k]

theorem digitsToNat_pad8 (cs : List Char) : digitsToNat (pad8 cs) = digitsToNat cs :=
  digitsToNat_replicate_zero _ cs

theorem allDigits_pad8 {cs : List Char} (h : allDigits cs = true) :
    allDigits (pad8 cs) = true := by
  simp only [allDigits, pad8, List.all_append, Bool.and_eq_true, List.all_eq_true] at h ⊢
  exact ⟨fun c hc => by simp [List.eq_of_mem_replicate hc]; rfl, h⟩

theorem pad8_length {cs : List Char} (h : cs.length ≤ 8) : (pad8 cs).length = 8 := by
  simp [pad8]
  omega

theorem signSplit_of_digit {c : Char} (rest : List Char) (h : isDigitChar c = true) :
    signSplit (c :: rest) = (false, c :: rest) := by
  have h1 : c ≠ '+' := fun hc => by subst hc; exact absurd h (by decide)
  have h2 : c ≠ '-' := fun hc => by subst hc; exact absurd h (by decide)
  unfold signSplit
  split
  next heq => exact absurd (List.head_eq_of_cons_eq heq.symm).symm h1
  next heq => exact absurd (List.head_eq_of_cons_eq heq.symm).symm h2
  next => rfl

theorem signSplit_of_allDigits {cs : List Char} (hne : cs ≠ []) (h : allDigits cs = true) :
    signSplit cs = (false, cs) := by
  cases cs with
  | nil => exact absurd rfl hne
  | cons c rest =>
    have hc : isDigitChar c = true := by
      have := List.all_eq_true.mp h c (List.mem_cons_self c rest)
      exact this
    exact signSplit_of_digit rest hc

theorem splitOnChar_of_not_mem {sep : Char} {cs : List Char} (h : sep ∉ cs) :
    splitOnChar sep cs = [cs] := by
  induction cs with
  | nil => rfl
  | cons c cs ih =>
    have hcs : sep ∉ cs := fun hm => h (List.mem_cons_of_mem c hm)
    have hc : ¬ c = sep := fun hceq => h (hceq ▸ List.mem_cons_self c cs)
    simp only [splitOnChar, if_neg hc, ih hcs]

theorem splitOnChar_append {sep : Char} {a : List Char} (b : List Char) (h : sep ∉ a) :
    splitOnChar sep (a ++ sep :: b) = a :: splitOnChar sep b := by
  induction a with
  | nil => simp [splitOnChar]
  | cons c a ih =>
    have hc : ¬ c = sep := fun hceq => h (hceq ▸ List.mem_cons_self c a)
    have ha : sep ∉ a := fun hm => h (List.mem_cons_of_mem c hm)
    simp only [List.cons_append, splitOnChar, if_neg hc]
    rw [show a.append (sep :: b) = a ++ sep :: b from rfl, ih ha]

theorem not_mem_dot_of_allDigits {cs : List Char} (h : allDigits cs = true) : '.' ∉ cs := by
  intro hm
  have := List.all_eq_true.mp h _ hm
  exact absurd this (by decide)

theorem parse_fmtInt {t : Int} (h0 : 0 ≤ t) (h1 : t < 2 ^ 63) :
    parseGoInt64 (fmtInt t) = some t := by
  have hneg : ¬ t < 0 := not_lt.mpr h0
  have hss : signSplit (natChars t.natAbs) = (false, natChars t.natAbs) :=
    signSplit_of_allDigits (natChars_ne_nil _) (allDigits_natChars _)
  unfold fmtInt parseGoInt64
  simp only [hneg, if_false, List.nil_append, hss]
  rw [if_pos ⟨natChars_ne_nil _, allDigits_natChars _⟩]
  simp only [Bool.false_eq_true, if_false, digitsToNat_natChars, Int.natAbs_of_nonneg h0]
  rw [if_pos ⟨by omega, h1⟩]

theorem roundNear_nonneg {a : Frac} (hn : 0 ≤ a.num) (hd : 0 < a.den) : 0 ≤ a.roundNear :=
  Int.ediv_nonneg (by omega) (by omega)

theorem parse_fmt8s {v : Frac} (hvn : 0 ≤ v.num) (hvd : 0 < v.den) :
    parseGoFloat (fmt8s v) = some (fmt8 v) := by
  have hnum : 0 ≤ (Frac.mul v (Frac.ofInt 100000000)).num := by
    simp only [Frac.mul, Frac.ofInt]
    exact mul_nonneg hvn (by norm_num)
  have hden : 0 < (Frac.mul v (Frac.ofInt 100000000)).den := by
    simp only [Frac.mul, Frac.ofInt]
    simpa using hvd
  set n : Int := (Frac.mul v (Frac.ofInt 100000000)).roundNear with hndef
  have hn0 : 0 ≤ n := roundNear_nonneg hnum hden
  have hnlt : ¬ n < 0 := not_lt.mpr hn0
  set m : Nat := n.natAbs with hmdef
  set A : List Char := natChars (m / 100000000) with hAdef
  set B : List Char := pad8 (natChars (m % 100000000)) with hBdef
  have hAne : A ≠ [] := natChars_ne_nil _
  have hAdig : allDigits A = true := allDigits_natChars _
  have hBdig : allDigits B = true := allDigits_pad8 (allDigits_natChars _)
  have hBlen : B.length = 8 :=
    pad8_length (natChars_length_le (by norm_num) (Nat.mod_lt _ (by norm_num)))
  have hdata : (fmt8s v).data = (if n < 0 then ['-'] else []) ++ A ++ '.' :: B := rfl
  rw [if_neg hnlt, List.nil_append] at hdata
  obtain ⟨c, rest, hA⟩ : ∃ c rest, A = c :: rest := by
    cases hAx : A with
    | nil => exact absurd hAx hAne
    | cons c rest => exact ⟨c, rest, rfl⟩
  have hcdig : isDigitChar c = true :=
    List.all_eq_true.mp hAdig c (by rw [hA]; exact List.mem_cons_self _ _)
  have hsign : signSplit ((fmt8s v).data) = (false, A ++ '.' :: B) := by
    rw [hdata, hA, List.cons_append]
    exact signSplit_of_digit _ hcdig
  have hsplit : splitOnChar '.' (A ++ '.' :: B) = [A, B] := by
    rw [splitOnChar_append B (not_mem_dot_of_allDigits hAdig),
        splitOnChar_of_not_mem (not_mem_dot_of_allDigits hBdig)]
  have hDA : digitsToNat A = m / 100000000 := by rw [hAdef]; exact digitsToNat_natChars _
  have hDB : digitsToNat B = m % 100000000 := by
    rw [hBdef, digitsToNat_pad8]; exact digitsToNat_natChars _
  have hmn : ((m : Int)) = n := by rw [hmdef]; exact Int.natAbs_of_nonneg hn0
  unfold parseGoFloat
  simp only [hsign, hsplit]
  rw [if_pos ⟨by simp [hA], hAdig, hBdig⟩]
  simp only [Bool.false_eq_true, if_false, one_mul, hDA, hDB, hBlen]
  unfold fmt8
  rw [← hndef]
  have hc : (100000000 : Int) * ((m / 100000000 : Nat) : Int) + ((m % 100000000 : Nat) : Int) = (m : Int) := by
    exact_mod_cast Nat.div_add_mod m 100000000
  congr 1
  rw [Frac.mk.injEq]
  exact ⟨by omega, by norm_num⟩

/-! ## Lemmas: fraction values and rounding bounds -/

theorem Frac.val_mul (a b : Frac) : (a.mul b).val = a.val * b.val := by
  simp only [Frac.mul, Frac.val]
  push_cast
  rw [div_mul_div_comm]

theorem Frac.val_ofInt (n : Int) : (Frac.ofInt n).val = (n : ℚ) := by
  simp [Frac.ofInt, Frac.val]

theorem floor_intCast_div_pos {a b : Int} (hb : 0 < b) :
    ⌊(a : ℚ) / (b : ℚ)⌋ = a / b := by
  obtain ⟨n, rfl⟩ := Int.eq_ofNat_of_zero_le hb.le
  exact_mod_cast Rat.floor_intCast_div_natCast a n

theorem Frac.roundNear_eq {a : Frac} (hd : 0 < a.den) : a.roundNear = round a.val := by
  have hden : (a.den : ℚ) ≠ 0 := by positivity
  have h2d : (0 : ℤ) < 2 * a.den := by omega
  have hiv : a.val + 1 / 2 = ((2 * a.num + a.den : Int) : ℚ) / ((2 * a.den : Int) : ℚ) := by
    push_cast
    field_simp [Frac.val]
    ring
  rw [round_eq, hiv, floor_intCast_div_pos h2d, Frac.roundNear]

theorem Frac.trunc_eq_floor {a : Frac} (hn : 0 ≤ a.num) (hd : 0 < a.den) :
    a.trunc = ⌊a.val⌋ := by
  obtain ⟨mn, hmn⟩ := Int.eq_ofNat_of_zero_le hn
  obtain ⟨md, hmd⟩ := Int.eq_ofNat_of_zero_le hd.le
  rw [Frac.trunc, Frac.val, hmn, hmd, floor_intCast_div_pos (by omega)]
  rfl

theorem fmt8_num_nonneg {v : Frac} (hn : 0 ≤ v.num) (hd : 0 < v.den) : 0 ≤ (fmt8 v).num := by
  refine roundNear_nonneg ?_ ?_
  · simp only [Frac.mul, Frac.ofInt]
    exact mul_nonneg hn (by norm_num)
  · simp only [Frac.mul, Frac.ofInt]
    omega

theorem fmt8_val {v : Frac} (hd : 0 < v.den) :
    (fmt8 v).val = ((round (v.val * 100000000) : Int) : ℚ) / 100000000 := by
  have hmd : 0 < (Frac.mul v (Frac.ofInt 100000000)).den := by
    simp only [Frac.mul, Frac.ofInt]
    omega
  show (((Frac.mul v (Frac.ofInt 100000000)).roundNear : Int) : ℚ) / ((100000000 : Int) : ℚ) = _
  rw [Frac.roundNear_eq hmd, Frac.val_mul, Frac.val_ofInt]
  norm_num

theorem fmt8_close {v : Frac} (hd : 0 < v.den) :
    |(fmt8 v).val - v.val| ≤ 1 / 200000000 := by
  rw [fmt8_val hd]
  have h := abs_sub_round (v.val * 100000000)
  have hrw : ((round (v.val * 100000000) : Int) : ℚ) / 100000000 - v.val
      = -((v.val * 100000000 - (round (v.val * 100000000) : Int)) / 100000000) := by
    ring
  rw [hrw, abs_neg, abs_div]
  have habs : |(100000000 : ℚ)| = 100000000 := by norm_num
  rw [habs]
  rw [div_le_div_iff₀ (by norm_num) (by norm_num)]
  nlinarith [h]

theorem roundtrip_trunc {x W : Int} (hW : 0 < W) (hWb : W ≤ 100000000)
    (hx : 0 ≤ x) (_hxW : x < W) :
    ((Frac.mul (fmt8 (Frac.div (Frac.ofInt x) (Frac.ofInt W))) (Frac.ofInt W)).trunc - x).natAbs ≤ 1 := by
  set q : Frac := Frac.div (Frac.ofInt x) (Frac.ofInt W) with hq
  have hqnum : q.num = x := by simp [hq, Frac.div, Frac.ofInt]
  have hqden : q.den = W := by simp [hq, Frac.div, Frac.ofInt]
  have hqd : 0 < q.den := by omega
  have hWq : (0 : ℚ) < (W : ℚ) := by exact_mod_cast hW
  have hqval : q.val * W = (x : ℚ) := by
    rw [Frac.val, hqnum, hqden]
    field_simp
  set f := fmt8 q with hf
  have hfnum : 0 ≤ f.num := fmt8_num_nonneg (by omega) hqd
  have htr : (Frac.mul f (Frac.ofInt W)).trunc = ⌊(Frac.mul f (Frac.ofInt W)).val⌋ := by
    refine Frac.trunc_eq_floor ?_ ?_
    · simp only [Frac.mul, Frac.ofInt]
      exact mul_nonneg hfnum hW.le
    · simp only [Frac.mul, Frac.ofInt, hf, fmt8]
      omega
  have hval : (Frac.mul f (Frac.ofInt W)).val = f.val * W := by
    rw [Frac.val_mul, Frac.val_ofInt]
  have hclose : |f.val - q.val| ≤ 1 / 200000000 := fmt8_close hqd
  have hdelta : |f.val * W - (x : ℚ)| ≤ (W : ℚ) / 200000000 := by
    have : f.val * W - (x : ℚ) = (f.val - q.val) * W := by
      rw [sub_mul, hqval]
    rw [this, abs_mul, abs_of_pos hWq]
    calc |f.val - q.val| * (W : ℚ) ≤ (1 / 200000000) * W :=
      mul_le_mul_of_nonneg_right hclose hWq.le
    _ = (W : ℚ) / 200000000 := by ring
  have hhalf : (W : ℚ) / 200000000 ≤ 1 / 2 := by
    rw [div_le_div_iff₀ (by norm_num) (by norm_num)]
    have : (W : ℚ) ≤ 100000000 := by exact_mod_cast hWb
    linarith
  have hb := abs_le.mp (le_trans hdelta hhalf)
  rw [htr, hval]
  have h2 : ⌊f.val * (W : ℚ)⌋ ≤ x := by
    have : f.val * (W : ℚ) < ((x + 1 : ℤ) : ℚ) := by
      push_cast
      linarith [hb.2]
    have := Int.floor_lt.mpr this
    omega
  have h3 : x - 1 ≤ ⌊f.val * (W : ℚ)⌋ := by
    refine Int.le_floor.mpr ?_
    push_cast
    linarith [hb.1]
  omega

theorem scale_double {x W : Int} (hW : 0 < W) (hWb : W < 100000000)
    (hx : 0 ≤ x) (_hxW : x < W) :
    (Frac.mul (fmt8 (Frac.div (Frac.ofInt x) (Frac.ofInt W))) (Frac.ofInt (2 * W))).trunc = 2 * x ∨
    (Frac.mul (fmt8 (Frac.div (Frac.ofInt x) (Frac.ofInt W))) (Frac.ofInt (2 * W))).trunc = 2 * x - 1 := by
  set q : Frac := Frac.div (Frac.ofInt x) (Frac.ofInt W) with hq
  have hqnum : q.num = x := by simp [hq, Frac.div, Frac.ofInt]
  have hqden : q.den = W := by simp [hq, Frac.div, Frac.ofInt]
  have hqd : 0 < q.den := by omega
  have hWq : (0 : ℚ) < (W : ℚ) := by exact_mod_cast hW
  have hqval : q.val * (2 * W) = 2 * (x : ℚ) := by
    rw [Frac.val, hqnum, hqden]
    field_simp
    ring
  set f := fmt8 q with hf
  have hfnum : 0 ≤ f.num := fmt8_num_nonneg (by omega) hqd
  have htr : (Frac.mul f (Frac.ofInt (2 * W))).trunc = ⌊(Frac.mul f (Frac.ofInt (2 * W))).val⌋ := by
    refine Frac.trunc_eq_floor ?_ ?_
    · simp only [Frac.mul, Frac.ofInt]
      exact mul_nonneg hfnum (by omega)
    · simp only [Frac.mul, Frac.ofInt, hf, fmt8]
      omega
  have hval : (Frac.mul f (Frac.ofInt (2 * W))).val = f.val * ((2 * W : ℤ) : ℚ) := by
    rw [Frac.val_mul, Frac.val_ofInt]
  have hclose : |f.val - q.val| ≤ 1 / 200000000 := fmt8_close hqd
  have hdecomp : f.val * ((2 * W : ℤ) : ℚ) = 2 * (x : ℚ) + (f.val - q.val) * (2 * W) := by
    push_cast
    linarith [hqval]
  have herr : |(f.val - q.val) * (2 * (W : ℚ))| < 1 := by
    rw [abs_mul]
    have ha : |2 * (W : ℚ)| = 2 * W := by
      rw [abs_of_pos]
      linarith
    rw [ha]
    have hWb2 : (W : ℚ) < 100000000 := by exact_mod_cast hWb
    calc |f.val - q.val| * (2 * (W : ℚ)) ≤ (1 / 200000000) * (2 * W) :=
      mul_le_mul_of_nonneg_right hclose (by linarith)
    _ < 1 := by linarith
  rw [htr, hval]
  rcases le_or_lt q.val f.val with hge | hlt
  · left
    rw [Int.floor_eq_iff]
    constructor
    · push_cast
      push_cast at hdecomp
      nlinarith [hge, hWq]
    · push_cast
      push_cast at hdecomp herr
      have := abs_lt.mp herr
      linarith [this.2]
  · right
    rw [Int.floor_eq_iff]
    constructor
    · push_cast
      push_cast at hdecomp herr
      have := abs_lt.mp herr
      linarith [this.1]
    · push_cast
      push_cast at hdecomp
      have hneg : (f.val - q.val) * (2 * (W : ℚ)) < 0 := by
        apply mul_neg_of_neg_of_pos
        · linarith
        · linarith
      linarith

/-! ## Lemmas: the playback loop -/

theorem playRows_pos (g : PlayerGeometry) :
    ∀ (rows : List Row) (i : Nat) (last : Int), 0 < i →
      playRows g i last rows = emitAll g last rows := by
  intro rows
  induction rows with
  | nil => intro i last h; rfl
  | cons r rs ih =>
    intro i last h
    cases hr : rowParses r with
    | none =>
      simp only [playRows, emitAll, hr]
      exact congrArg (PlayEvent.diag :: ·) (ih (i + 1) last (Nat.succ_pos i))
    | some v =>
      obtain ⟨t, nx, ny⟩ := v
      simp only [playRows, emitAll, hr, if_pos h]
      exact congrArg _ (ih (i + 1) t (Nat.succ_pos i))

theorem emitAll_parsed (g : PlayerGeometry) :
    ∀ (rows : List Row) (samples : List (Int × Frac × Frac)) (last : Int),
      rows.map rowParses = samples.map some →
      emitAll g last rows = emitSamples g last samples := by
  intro rows
  induction rows with
  | nil =>
    intro samples last h
    cases samples with
    | nil => rfl
    | cons s ss => simp at h
  | cons r rs ih =>
    intro samples last h
    cases samples with
    | nil => simp at h
    | cons s ss =>
      simp only [List.map_cons, List.cons.injEq] at h
      obtain ⟨t, nx, ny⟩ := s
      simp only [emitAll, emitSamples, h.1]
      exact congrArg _ (ih ss t h.2)

theorem playRows_skip (g : PlayerGeometry) :
    ∀ (bad rows : List Row) (i : Nat) (last : Int),
      (∀ b ∈ bad, rowParses b = none) →
      playRows g i last (bad ++ rows) =
        List.replicate bad.length PlayEvent.diag ++ playRows g (i + bad.length) last rows := by
  intro bad
  induction bad with
  | nil => intro rows i last _; simp
  | cons b bs ih =>
    intro rows i last h
    have hb : rowParses b = none := h b (List.mem_cons_self _ _)
    have harith : i + 1 + bs.length = i + (bs.length + 1) := by omega
    simp only [List.cons_append, playRows, hb, List.length_cons, List.replicate_succ]
    rw [show bs.append rows = bs ++ rows from rfl,
      ih rows (i + 1) last (fun c hc => h c (List.mem_cons_of_mem b hc)), harith]

theorem moveEvents_append (es fs : List PlayEvent) :
    moveEvents (es ++ fs) = moveEvents es ++ moveEvents fs := by
  induction es with
  | nil => rfl
  | cons e es ih =>
    cases e with
    | diag => simpa [moveEvents] using ih
    | move d x y => simp [moveEvents, ih]

theorem moveEvents_replicate_diag (k : Nat) :
    moveEvents (List.replicate k PlayEvent.diag) = [] := by
  induction k with
  | zero => rfl
  | succ k ih => simpa [List.replicate_succ, moveEvents] using ih

theorem totalSleep_emitSamples (g : PlayerGeometry) :
    ∀ (samples : List (Int × Frac × Frac)) (prev : Int × Frac × Frac),
      List.Chain (fun a b => a.1 < b.1) prev samples →
      totalSleepOf (emitSamples g prev.1 samples) = (samples.getLastD prev).1 - prev.1 := by
  intro samples
  induction samples with
  | nil => intro prev _; simp [emitSamples, totalSleepOf]
  | cons s ss ih =>
    intro prev h
    rw [List.chain_cons] at h
    obtain ⟨t, nx, ny⟩ := s
    have hlt : prev.1 < t := h.1
    have hmax : max (t - prev.1) 0 = t - prev.1 := max_eq_left (by omega)
    simp only [emitSamples, totalSleepOf, List.getLastD_cons, hmax]
    rw [ih (t, nx, ny) h.2]
    omega

theorem moveEvents_playRows_append (g : PlayerGeometry) :
    ∀ (pre rest : List Row) (i : Nat) (last : Int),
      ∃ ms lastA, moveEvents (playRows g i last (pre ++ rest)) =
        ms ++ moveEvents (playRows g (i + pre.length) lastA rest) := by
  intro pre
  induction pre with
  | nil => intro rest i last; exact ⟨[], last, by simp⟩
  | cons r rs ih =>
    intro rest i last
    have harith : i + 1 + rs.length = i + (rs.length + 1) := by omega
    cases hr : rowParses r with
    | none =>
      obtain ⟨ms, lastA, hms⟩ := ih rest (i + 1) last
      refine ⟨ms, lastA, ?_⟩
      rw [harith] at hms
      simp only [List.cons_append, playRows, hr, moveEvents, List.length_cons]
      rw [show rs.append rest = rs ++ rest from rfl, hms]
    | some v =>
      obtain ⟨t, nx, ny⟩ := v
      obtain ⟨ms, lastA, hms⟩ := ih rest (i + 1) t
      refine ⟨(if 0 < i then max (t - last) 0 else 0,
        (target g nx ny).1, (target g nx ny).2) :: ms, lastA, ?_⟩
      rw [harith] at hms
      simp only [List.cons_append, playRows, hr, moveEvents, List.length_cons]
      rw [show rs.append rest = rs ++ rest from rfl, hms]

/-! ## Lemmas: recorder tick handler, header, and buffered writer -/

theorem appendsOf_append (xs ys : List TickStep) :
    appendsOf (xs ++ ys) = appendsOf xs ++ appendsOf ys := by
  induction xs with
  | nil => rfl
  | cons s xs ih => cases s <;> simp [appendsOf, ih]

theorem appendsOf_tickTrace (g : RecGeometry) (inp : TickInput) (est : EstOutcome) :
    appendsOf (tickTrace g inp est) = [sampleRow g inp.timestamp inp.mouseX inp.mouseY] := by
  obtain ⟨ts, mx, my, co, eo, so⟩ := inp
  cases co <;> cases eo <;> cases so <;> cases est <;> rfl

theorem runRecords_eq (g : RecGeometry) :
    ∀ (inps : List TickInput) (est : Nat → EstOutcome),
      runRecords g inps est =
        inps.map (fun inp => sampleRow g inp.timestamp inp.mouseX inp.mouseY) := by
  intro inps
  induction inps with
  | nil => intro est; rfl
  | cons i is ih =>
    intro est
    simp only [runRecords, ticksTrace, appendsOf_append, appendsOf_tickTrace, List.map_cons]
    rw [show appendsOf (ticksTrace g is fun k => est (k + 1)) =
      runRecords g is (fun k => est (k + 1)) from rfl, ih]
    rfl

theorem dot_mem_fmt8s (v : Frac) : '.' ∈ (fmt8s v).data := by
  simp [fmt8s, List.mem_append]

theorem sampleRow_ne_header (g : RecGeometry) (ts mx my : Int) :
    sampleRow g ts mx my ≠ headerRowRec := by
  intro h
  simp only [sampleRow, headerRowRec, List.cons.injEq, and_true] at h
  have hd : '.' ∈ ("norm_y" : String).data := by
    have := congrArg String.data h.2.2
    exact this ▸ dot_mem_fmt8s _
  exact absurd hd (by decide)

theorem bufWrite_inv (cap : Nat) (w : BufWriter) (p : List Char) :
    (bufWrite cap w p).flushed ++ (bufWrite cap w p).buf = w.flushed ++ w.buf ++ p := by
  unfold bufWrite
  split
  · simp
  · simp [List.append_assoc]

theorem writeRows_inv (cap : Nat) :
    ∀ (rows : List Row) (w : BufWriter),
      (writeRows cap w rows).flushed ++ (writeRows cap w rows).buf =
        w.flushed ++ w.buf ++ (rows.map csvLine).flatten := by
  intro rows
  induction rows with
  | nil => intro w; simp [writeRows]
  | cons r rs ih =>
    intro w
    simp only [writeRows, List.map_cons, List.flatten_cons]
    rw [ih (bufWrite cap w (csvLine r)), bufWrite_inv]
    simp [List.append_assoc]

theorem readAllCsv_cons (h : Row) (body : List Row) :
    readAllCsv (h :: body) =
      (h :: (readAllAux h.length body).1, (readAllAux h.length body).2) := rfl

theorem loadAndPlay_header (gp : PlayerGeometry) (h1 h2 : Row) (body : List Row)
    (hlen : h1.length = h2.length) :
    loadAndPlay gp (h1 :: body) = loadAndPlay gp (h2 :: body) := by
  unfold loadAndPlay
  rw [readAllCsv_cons, readAllCsv_cons, hlen]
  simp only [List.drop_succ_cons, List.drop_zero]

/-! ## Claims -/

/-- Claim C1: the claim says a malformed row (wrong field count or unparsable
number) is never fatal to loading the whole recording.  The code contradicts
its own skip branch: encoding/csv with the default FieldsPerRecord makes
ReadAll return ErrFieldCount on the first row whose field count differs from
the header, and the Player calls log.Fatalf, discarding the whole recording.
This theorem evaluates the load at a log of ten valid rows and one two-field
row: the entire load fails instead of skipping the bad row. -/
theorem claim1_fieldCountFatal :
    loadAndPlay playHD
      [headerRowRec,
       ["1000", "0.10000000", "0.10000000"],
       ["2000", "0.20000000", "0.20000000"],
       ["3000", "0.30000000", "0.30000000"],
       ["4000", "0.40000000", "0.40000000"],
       ["5000", "0.50000000", "0.50000000"],
       ["6000", "0.50000000", "0.60000000"],
       ["7000", "0.50000000", "0.70000000"],
       ["8000", "0.50000000", "0.80000000"],
       ["9000", "0.50000000", "0.90000000"],
       ["10000", "0.50000000", "0.95000000"],
       ["11000", "0.5"]] = Except.error () := rfl

/-- Claim C2 counterexample: after the recorder appends its first sample
through csv.Writer, the durable (flushed) bytes are still empty although the
serialized record is not, so the appended sample is not durably flushed and
a process killed now loses it. -/
theorem claim2_counterexample :
    (writeRows 4096 bufInit [headerRowRec, ["1000", "0.50000000", "0.50000000"]]).flushed = []
    ∧ csvLine ["1000", "0.50000000", "0.50000000"] ≠ [] :=
  ⟨rfl, by decide⟩

/-- Claim C2 (amended): appends go into the 4096-byte buffer of csv.Writer
and become durable only when a write overflows the buffer or at the deferred
Flush; while the process runs, flushed plus buffered bytes are exactly the
serialized header and samples in order, and a run that reaches its deferred
Flush persists everything. -/
theorem claim2_theorem (cap : Nat) (rows : List Row) :
    (writeRows cap bufInit rows).flushed ++ (writeRows cap bufInit rows).buf =
      (rows.map csvLine).flatten
    ∧ (bufFlush (writeRows cap bufInit rows)).flushed = (rows.map csvLine).flatten := by
  have h := writeRows_inv cap rows bufInit
  simp only [bufInit, List.nil_append] at h
  exact ⟨h, by simp only [bufFlush]; exact h⟩

/-- Claim C3 counterexample: in the recorder variant of src/unnamed/part_001
the CSV record is built from the Gemini response, so on one tick a failed
estimator call yields zero primary records while a well-formed response
yields one: the estimator outcome changes the count of recorded samples. -/
theorem claim3_counterexample :
    (tickRecordsV1 ⟨1000, 0, 0, true, true, true⟩ EstOutcome.failed).length = 0
    ∧ (tickRecordsV1 ⟨1000, 0, 0, true, true, true⟩ (EstOutcome.ok "123,456")).length = 1 :=
  ⟨rfl, rfl⟩

/-- Claim C3 (amended, for src/recorder/main.go): the primary records of a
run are independent of every estimator outcome, one record is appended per
tick regardless, and the synchronous tick duration does not depend on the
cost of the estimator call, which runs in a goroutine. -/
theorem claim3_theorem (g : RecGeometry) (inps : List TickInput) (e1 e2 : Nat → EstOutcome) :
    runRecords g inps e1 = runRecords g inps e2
    ∧ (runRecords g inps e1).length = inps.length
    ∧ ∀ (inp : TickInput) (a b c d m1 m2 : Nat),
        tickSyncMillis inp ⟨a, b, c, d, m1⟩ = tickSyncMillis inp ⟨a, b, c, d, m2⟩ := by
  refine ⟨by rw [runRecords_eq, runRecords_eq], ?_, fun inp a b c d m1 m2 => rfl⟩
  rw [runRecords_eq]
  simp

/-- Claim C8 counterexample: the Player does not read the header to determine
the coordinate space: a log tagged with raw pixel column names x, y and a
log tagged with normalized column names produce identical playback, with the
raw-pixel body (960, 540) absurdly multiplied by the logical dimensions. -/
theorem claim8_counterexample :
    loadAndPlay play4k [["timestamp", "x", "y"], ["0", "960", "540"]] =
      Except.ok [PlayEvent.move 0 3686400 1166400]
    ∧ loadAndPlay play4k [["timestamp", "norm_x", "norm_y"], ["0", "960", "540"]] =
      Except.ok [PlayEvent.move 0 3686400 1166400] :=
  ⟨rfl, rfl⟩

/-- Claim C8 (amended): the Recorder writes the header exactly once, before
any sample row, and no sample row ever coincides with the header; the
Player, however, merely discards the first row and interprets the body as
unit-normalized unconditionally: any two headers of equal field count give
identical playback. -/
theorem claim8_theorem (g : RecGeometry) (inps : List TickInput) (est : Nat → EstOutcome) :
    appendsOf (recorderTrace g inps est) = headerRowRec :: runRecords g inps est
    ∧ (∀ r ∈ runRecords g inps est, r ≠ headerRowRec)
    ∧ ∀ (gp : PlayerGeometry) (h1 h2 : Row) (body : List Row), h1.length = h2.length →
        loadAndPlay gp (h1 :: body) = loadAndPlay gp (h2 :: body) := by
  refine ⟨rfl, ?_, fun gp h1 h2 body hlen => loadAndPlay_header gp h1 h2 body hlen⟩
  intro r hr
  rw [runRecords_eq] at hr
  obtain ⟨inp, _, rfl⟩ := List.mem_map.mp hr
  exact sampleRow_ne_header g _ _ _

/-- Claim C8 witness: a concrete application of the header-independence
conjunct to two different headers over the same body. -/
theorem claim8_witness :
    loadAndPlay playHD [["timestamp", "x", "y"], ["1000", "0.50000000", "0.50000000"]] =
      loadAndPlay playHD [["timestamp", "norm_x", "norm_y"], ["1000", "0.50000000", "0.50000000"]] :=
  (claim8_theorem recG1080 [] (fun _ => EstOutcome.failed)).2.2 playHD
    ["timestamp", "x", "y"] ["timestamp", "norm_x", "norm_y"]
    [["1000", "0.50000000", "0.50000000"]] (by decide)

/-- Claim C9: on every tick of src/recorder/main.go the primary sample is
appended first, before the capture, encode, save and estimator steps, and it
is appended exactly once whatever the capture, encode, save and estimator
outcomes are, so a capture or encode failure never prevents the sample. -/
theorem claim9_theorem (g : RecGeometry) (inp : TickInput) (est : EstOutcome) :
    (tickTrace g inp est).head? =
      some (TickStep.append (sampleRow g inp.timestamp inp.mouseX inp.mouseY))
    ∧ appendsOf (tickTrace g inp est) = [sampleRow g inp.timestamp inp.mouseX inp.mouseY] :=
  ⟨rfl, appendsOf_tickTrace g inp est⟩

/-- Claim C5 counterexample: with a malformed leading row, the single issued
positioning command is preceded by a sleep of 500 milliseconds, not zero,
because the no-sleep guard tests the raw row index i, not whether a command
was already issued. -/
theorem claim5_counterexample :
    moveEvents (playRows playHD 0 0
      [["abc", "0.50000000", "0.50000000"], ["500", "0.25000000", "0.25000000"]]) =
      [(500, 480, 270)]
    ∧ (500 : Int) ≠ 0 :=
  ⟨by decide, by decide⟩

/-- Claim C5 (amended): no sleep is performed before the command coming from
the first row of the file; but when one or more leading rows are skipped as
malformed, the first issued command is preceded by a sleep of its own offset
clamped at zero, since lastTimestamp is still at its zero initial value. -/
theorem claim5_theorem (g : PlayerGeometry) (bad : List Row) (r : Row) (rest : List Row)
    (t : Int) (nx ny : Frac) (hr : rowParses r = some (t, nx, ny)) :
    playRows g 0 0 (r :: rest) =
      PlayEvent.move 0 (target g nx ny).1 (target g nx ny).2 :: emitAll g t rest
    ∧ (bad ≠ [] → (∀ b ∈ bad, rowParses b = none) →
        playRows g 0 0 (bad ++ r :: rest) =
          List.replicate bad.length PlayEvent.diag ++
            PlayEvent.move (max t 0) (target g nx ny).1 (target g nx ny).2 ::
              emitAll g t rest) := by
  constructor
  · simp only [playRows, hr]
    rw [if_neg (by omega : ¬ (0 : Nat) < 0), playRows_pos g rest 1 t (by omega)]
  · intro hne hbad
    rw [playRows_skip g bad (r :: rest) 0 0 hbad]
    have hlen : 0 < bad.length := List.length_pos.mpr hne
    have hstep : playRows g (0 + bad.length) 0 (r :: rest) =
        PlayEvent.move (max t 0) (target g nx ny).1 (target g nx ny).2 ::
          emitAll g t rest := by
      simp only [playRows, hr]
      rw [if_pos (by omega : 0 < 0 + bad.length), sub_zero,
        playRows_pos g rest (0 + bad.length + 1) t (by omega)]
    rw [hstep]

/-- Claim C5 witness: the amended statement applied to one malformed leading
row followed by a valid row at offset 500. -/
theorem claim5_witness :
    playRows playHD 0 0
      [["abc", "0.50000000", "0.50000000"], ["500", "0.25000000", "0.25000000"]] =
      List.replicate 1 PlayEvent.diag ++
        PlayEvent.move (max 500 0)
          (target playHD ⟨25000000, 100000000⟩ ⟨25000000, 100000000⟩).1
          (target playHD ⟨25000000, 100000000⟩ ⟨25000000, 100000000⟩).2 ::
          emitAll playHD 500 [] :=
  (claim5_theorem playHD [["abc", "0.50000000", "0.50000000"]]
    ["500", "0.25000000", "0.25000000"] [] 500 ⟨25000000, 100000000⟩ ⟨25000000, 100000000⟩
    (by decide)).2 (by decide) (by decide)

/-- Claim C6 counterexample: a well-formed recording with offsets 1000 and
2000 plays back with a total sleep of 1000 milliseconds, not the last offset
2000, because the recorder's first tick fires one period after start and no
sleep precedes the first command; the difference of 1000 is far outside the
50 millisecond tolerance the claim allows. -/
theorem claim6_counterexample :
    totalSleepOf (playRows playHD 0 0
      [["1000", "0.50000000", "0.50000000"], ["2000", "0.25000000", "0.25000000"]]) = 1000
    ∧ ¬ ((2000 : Int) - totalSleepOf (playRows playHD 0 0
        [["1000", "0.50000000", "0.50000000"], ["2000", "0.25000000", "0.25000000"]])).natAbs ≤ 50 :=
  ⟨by decide, by decide⟩

/-- Claim C6 (amended): for a well-formed recording, all rows parsed and
offsets strictly increasing, the total sleep of a full playback equals the
last offset minus the first offset: each delay is the difference of
consecutive absolute recorded offsets, so error does not accumulate. -/
theorem claim6_theorem (g : PlayerGeometry) (r0 : Row) (rest : List Row)
    (s0 : Int × Frac × Frac) (srest : List (Int × Frac × Frac))
    (h0 : rowParses r0 = some s0)
    (hrest : rest.map rowParses = srest.map some)
    (hchain : List.Chain (fun a b => a.1 < b.1) s0 srest) :
    totalSleepOf (playRows g 0 0 (r0 :: rest)) = (srest.getLastD s0).1 - s0.1 := by
  obtain ⟨t0, nx0, ny0⟩ := s0
  simp only [playRows, h0]
  rw [if_neg (by omega : ¬ (0 : Nat) < 0), playRows_pos g rest 1 t0 (by omega),
    emitAll_parsed g rest srest t0 hrest]
  simp only [totalSleepOf]
  have h := totalSleep_emitSamples g srest (t0, nx0, ny0) hchain
  simp only at h
  omega

/-- Claim C6 witness: the amended statement applied to a two-row recording
with offsets 0 and 1000. -/
theorem claim6_witness :
    totalSleepOf (playRows playHD 0 0
      [["0", "0.50000000", "0.50000000"], ["1000", "0.25000000", "0.25000000"]]) = 1000 := by
  have h := claim6_theorem playHD ["0", "0.50000000", "0.50000000"]
    [["1000", "0.25000000", "0.25000000"]]
    (0, ⟨50000000, 100000000⟩, ⟨50000000, 100000000⟩)
    [(1000, ⟨25000000, 100000000⟩, ⟨25000000, 100000000⟩)]
    (by decide) (by decide) (List.chain_cons.mpr ⟨by decide, List.Chain.nil⟩)
  simpa using h

/-- Claim C10: for two consecutive rows that both parse, with the later
offset equal to or below the earlier one, playback neither fails nor waits:
the two commands are issued in file order and the sleep before the second is
exactly zero, because time.Sleep returns immediately on a non-positive
duration. -/
theorem claim10_theorem (g : PlayerGeometry) (pre post : List Row) (r1 r2 : Row)
    (t1 t2 : Int) (x1 y1 x2 y2 : Frac)
    (h1 : rowParses r1 = some (t1, x1, y1))
    (h2 : rowParses r2 = some (t2, x2, y2))
    (hle : t2 ≤ t1) :
    ∃ ms d1, moveEvents (playRows g 0 0 (pre ++ r1 :: r2 :: post)) =
      ms ++ (d1, (target g x1 y1).1, (target g x1 y1).2)
         :: (0, (target g x2 y2).1, (target g x2 y2).2)
         :: moveEvents (emitAll g t2 post) := by
  obtain ⟨ms, lastA, hms⟩ := moveEvents_playRows_append g pre (r1 :: r2 :: post) 0 0
  refine ⟨ms, if 0 < 0 + pre.length then max (t1 - lastA) 0 else 0, ?_⟩
  rw [hms]
  have hmax : max (t2 - t1) 0 = 0 := max_eq_right (by omega)
  simp only [playRows, h1, h2, moveEvents]
  rw [if_pos (by omega : 0 < 0 + pre.length + 1), hmax,
    playRows_pos g post (0 + pre.length + 1 + 1) t2 (by omega)]

/-- Claim C10 witness: two adjacent rows with equal offsets 1000. -/
theorem claim10_witness :
    ∃ ms d1, moveEvents (playRows playHD 0 0
      ([] ++ ["1000", "0.50000000", "0.50000000"] :: ["1000", "0.25000000", "0.25000000"] :: [])) =
      ms ++ (d1, (target playHD ⟨50000000, 100000000⟩ ⟨50000000, 100000000⟩).1,
                 (target playHD ⟨50000000, 100000000⟩ ⟨50000000, 100000000⟩).2)
         :: (0, (target playHD ⟨25000000, 100000000⟩ ⟨25000000, 100000000⟩).1,
                (target playHD ⟨25000000, 100000000⟩ ⟨25000000, 100000000⟩).2)
         :: moveEvents (emitAll playHD 1000 []) :=
  claim10_theorem playHD [] [] ["1000", "0.50000000", "0.50000000"]
    ["1000", "0.25000000", "0.25000000"] 1000 1000
    ⟨50000000, 100000000⟩ ⟨50000000, 100000000⟩ ⟨25000000, 100000000⟩ ⟨25000000, 100000000⟩
    (by decide) (by decide) (by decide)

/-- Claim C4 counterexample: the claim allows any positive integer
dimensions, but on a 1000000000-wide geometry the position 16 replays as 20,
four units off, because the eight-decimal serialization cannot resolve one
unit at that scale.  The full pipeline, header plus recorded row, is
evaluated. -/
theorem claim4_counterexample :
    loadAndPlay ⟨1000000000, 1000000000⟩
      [headerRowRec, sampleRow ⟨1000000000, 1000000000, 1000000000, 1000000000⟩ 0 16 0] =
      Except.ok [PlayEvent.move 0 20 0]
    ∧ ¬ (((20 : Int) - 16).natAbs ≤ 1) :=
  ⟨rfl, by decide⟩

/-- Claim C4 (amended): for logical dimensions of at most one hundred
million, in particular the low thousands the spec names, recording a valid
logical position (dividing by the dimension, serializing with eight decimal
digits) and playing it back on the same geometry (parsing, multiplying by
the dimension, truncating to int) lands within one unit of the original in
each axis, and the recorded row parses back exactly. -/
theorem claim4_theorem (g : RecGeometry) (ts x y : Int)
    (hW : 0 < g.logicalWidth) (hWb : g.logicalWidth ≤ 100000000)
    (hH : 0 < g.logicalHeight) (hHb : g.logicalHeight ≤ 100000000)
    (hx : 0 ≤ x) (hxW : x < g.logicalWidth) (hy : 0 ≤ y) (hyH : y < g.logicalHeight)
    (hts : 0 ≤ ts) (htsb : ts < 2 ^ 63) :
    ∃ nx ny, rowParses (sampleRow g ts x y) = some (ts, nx, ny)
      ∧ ((target ⟨g.logicalWidth, g.logicalHeight⟩ nx ny).1 - x).natAbs ≤ 1
      ∧ ((target ⟨g.logicalWidth, g.logicalHeight⟩ nx ny).2 - y).natAbs ≤ 1 := by
  set vx := Frac.div (Frac.ofInt x) (Frac.ofInt g.logicalWidth) with hvx
  set vy := Frac.div (Frac.ofInt y) (Frac.ofInt g.logicalHeight) with hvy
  have hvxn : 0 ≤ vx.num := by simp only [hvx, Frac.div, Frac.ofInt, mul_one]; omega
  have hvxd : 0 < vx.den := by simp only [hvx, Frac.div, Frac.ofInt, one_mul]; omega
  have hvyn : 0 ≤ vy.num := by simp only [hvy, Frac.div, Frac.ofInt, mul_one]; omega
  have hvyd : 0 < vy.den := by simp only [hvy, Frac.div, Frac.ofInt, one_mul]; omega
  refine ⟨fmt8 vx, fmt8 vy, ?_, ?_, ?_⟩
  · show rowParses [fmtInt ts, fmt8s vx, fmt8s vy] = _
    simp only [rowParses, parse_fmtInt hts htsb, parse_fmt8s hvxn hvxd, parse_fmt8s hvyn hvyd]
  · show ((Frac.mul (fmt8 vx) (Frac.ofInt g.logicalWidth)).trunc - x).natAbs ≤ 1
    exact roundtrip_trunc hW hWb hx hxW
  · show ((Frac.mul (fmt8 vy) (Frac.ofInt g.logicalHeight)).trunc - y).natAbs ≤ 1
    exact roundtrip_trunc hH hHb hy hyH

/-- Claim C4 witness: position (1000, 500) on a 1920 by 1080 geometry. -/
theorem claim4_witness :
    ∃ nx ny, rowParses (sampleRow recG1080 0 1000 500) = some (0, nx, ny)
      ∧ ((target ⟨recG1080.logicalWidth, recG1080.logicalHeight⟩ nx ny).1 - 1000).natAbs ≤ 1
      ∧ ((target ⟨recG1080.logicalWidth, recG1080.logicalHeight⟩ nx ny).2 - 500).natAbs ≤ 1 :=
  claim4_theorem recG1080 0 1000 500 (by decide) (by decide) (by decide) (by decide)
    (by decide) (by decide) (by decide) (by decide) (by decide) (by decide)

/-- Claim C7 counterexample: a sample recorded at (1, 1) on the 1920 by 1080
one-to-one geometry replays on the 3840 by 2160 geometry at (1, 2), not at
exactly (2, 2): the x coordinate comes out one unit below twice the recorded
position because int() truncates after the eight-decimal rounding went
down. -/
theorem claim7_counterexample :
    loadAndPlay play4k [headerRowRec, sampleRow recG1080 0 1 1] =
      Except.ok [PlayEvent.move 0 1 2]
    ∧ (1 : Int) ≠ 2 * 1 :=
  ⟨rfl, by decide⟩

/-- Claim C7 (amended): replaying a log recorded on the 1920 by 1080
one-to-one geometry on a 3840 by 2160 geometry scales every valid position
to twice the recorded value or one unit below it in each axis, never more
than one truncation unit away from exact doubling. -/
theorem claim7_theorem (ts x y : Int) (hx : 0 ≤ x) (hxW : x < 1920)
    (hy : 0 ≤ y) (hyH : y < 1080) (hts : 0 ≤ ts) (htsb : ts < 2 ^ 63) :
    ∃ nx ny, rowParses (sampleRow recG1080 ts x y) = some (ts, nx, ny)
      ∧ ((target play4k nx ny).1 = 2 * x ∨ (target play4k nx ny).1 = 2 * x - 1)
      ∧ ((target play4k nx ny).2 = 2 * y ∨ (target play4k nx ny).2 = 2 * y - 1) := by
  set vx := Frac.div (Frac.ofInt x) (Frac.ofInt (1920 : Int)) with hvx
  set vy := Frac.div (Frac.ofInt y) (Frac.ofInt (1080 : Int)) with hvy
  have hvxn : 0 ≤ vx.num := by simp only [hvx, Frac.div, Frac.ofInt, mul_one]; omega
  have hvxd : 0 < vx.den := by simp only [hvx, Frac.div, Frac.ofInt, one_mul]; omega
  have hvyn : 0 ≤ vy.num := by simp only [hvy, Frac.div, Frac.ofInt, mul_one]; omega
  have hvyd : 0 < vy.den := by simp only [hvy, Frac.div, Frac.ofInt, one_mul]; omega
  refine ⟨fmt8 vx, fmt8 vy, ?_, ?_, ?_⟩
  · show rowParses [fmtInt ts, fmt8s vx, fmt8s vy] = _
    simp only [rowParses, parse_fmtInt hts htsb, parse_fmt8s hvxn hvxd, parse_fmt8s hvyn hvyd]
  · show ((Frac.mul (fmt8 vx) (Frac.ofInt (3840 : Int))).trunc = 2 * x ∨
      (Frac.mul (fmt8 vx) (Frac.ofInt (3840 : Int))).trunc = 2 * x - 1)
    have h38 : (3840 : Int) = 2 * 1920 := by norm_num
    rw [h38]
    exact scale_double (by norm_num) (by norm_num) hx hxW
  · show ((Frac.mul (fmt8 vy) (Frac.ofInt (2160 : Int))).trunc = 2 * y ∨
      (Frac.mul (fmt8 vy) (Frac.ofInt (2160 : Int))).trunc = 2 * y - 1)
    have h21 : (2160 : Int) = 2 * 1080 := by norm_num
    rw [h21]
    exact scale_double (by norm_num) (by norm_num) hy hyH

/-- Claim C7 witness: position (3, 27), whose normalized forms are exact in
eight decimals, replays at exactly (6, 54). -/
theorem claim7_witness :
    ∃ nx ny, rowParses (sampleRow recG1080 0 3 27) = some (0, nx, ny)
      ∧ ((target play4k nx ny).1 = 2 * 3 ∨ (target play4k nx ny).1 = 2 * 3 - 1)
      ∧ ((target play4k nx ny).2 = 2 * 27 ∨ (target play4k nx ny).2 = 2 * 27 - 1) :=
  claim7_theorem 0 3 27 (by decide) (by decide) (by decide) (by decide) (by decide) (by decide)
